import Mathlib

/-!
Verification development for the module-graph core in src/src/Graph.ts.
The definitions below are a shallow embedding of the orchestration code of
the Graph class: JavaScript Map and plain-object dictionaries become
association lists preserving insertion order, promise pipelines become
explicit state-passing functions, and hook results become inductive values.
Where the deciding code lives outside src (plugin driver, path utilities,
hashing and sorting utilities, the Module AST layer), the corresponding
definition is modelled from the specification and marked as such in its
doc string.
-/

set_option autoImplicit false

/-- Association-list lookup keyed by strings, returning the first binding,
mirroring JavaScript Map.get and plain-object property reads. -/
def lookupKey {β : Type} (m : List (String × β)) (k : String) : Option β :=
  match m with
  | [] => none
  | (k', v) :: rest => if k' = k then some v else lookupKey rest k

/-- JavaScript Map.set and object property assignment: replace the first
binding with the given key in place, otherwise append a fresh binding. -/
def mapSet {β : Type} (m : List (String × β)) (k : String) (v : β) : List (String × β) :=
  match m with
  | [] => [(k, v)]
  | (k', v') :: rest => if k' = k then (k, v) :: rest else (k', v') :: mapSet rest k v

/-- Number of occurrences of a string in a list. -/
def countId (x : String) : List String → Nat
  | [] => 0
  | y :: rest => (if y = x then 1 else 0) + countId x rest

/-- A value stored in Graph.moduleById: either an internal Module object or
an ExternalModule object. Object identity is modelled by an allocation
token. -/
inductive ModEntry where
  | mod (token : Nat)
  | ext (token : Nat)
deriving DecidableEq

/-- Allocation token of the underlying object. -/
def ModEntry.token : ModEntry → Nat
  | .mod t => t
  | .ext t => t

/-- The mutable graph state touched by fetchModule and fetchAllDependencies:
moduleById, watchFiles, the modules and externalModules registration lists,
the set of external modules with exportsNamespace set, plus instrumentation
logs recording every load-hook invocation, every transform invocation and
every emitted asset. -/
structure GState where
  moduleById : List (String × ModEntry)
  watchFiles : List String
  modules : List Nat
  externalModules : List Nat
  extNamespaceTokens : List Nat
  loadLog : List String
  transformLog : List String
  emittedAssets : List (String × String)
  nextToken : Nat
deriving DecidableEq

/-- The settled value of the load hook as seen by fetchModule: a string, an
object whose code property is a string, an object without a string code, a
nullish value, or some other non-object value. -/
inductive LoadValue where
  | str (s : String)
  | codeObj (code : String)
  | objNoCode
  | nullish
  | other
deriving DecidableEq

/-- The validation performed on the load result in fetchModule: a string is
accepted, an object with a string code property is accepted, anything else
trips the BAD_LOADER error. The accepted code string is returned. -/
def validateLoad : LoadValue → Option String
  | .str s => some s
  | .codeObj c => some c
  | _ => none

/-- Fatal build errors raised by the embedded code paths. -/
inductive BuildErr where
  | externalFetch (id : String)
  | loadFail (id : String)
  | badLoader (id : String)
  | unresolvedImport
  | invalidExternalId
deriving DecidableEq

/-- The fields of a cached ModuleJSON that the fetch pipeline reads. -/
structure ModuleJSONM where
  mid : String
  originalCode : String
  customTransformCache : Bool
  transformAssets : Option (List (String × String))
  tcode : String
deriving DecidableEq

/-- External collaborators of fetchModule: the settled load-hook result per
id, the transform pipeline (utils/transform, outside src) and the cached
modules map populated from options.cache. -/
structure FetchEnv where
  load : String → Except String LoadValue
  transform : String → ModuleJSONM
  cachedModules : List (String × ModuleJSONM)

/-- Tail of the fetch pipeline: module.setSource(source), pushing the module
onto modules and re-registering it in moduleById. -/
def finishFetch (g : GState) (id : String) (t : Nat) (src : ModuleJSONM) :
    (Except BuildErr (ModEntry × Option ModuleJSONM)) × GState :=
  (.ok (.mod t, some src),
   { g with modules := g.modules ++ [t], moduleById := mapSet g.moduleById id (.mod t) })

/-- The part of fetchModule that runs after the fresh module has been
registered: invoke the load hook (recorded in loadLog), validate its result,
then either reuse a matching cached module (re-emitting its transform
assets) or run transform (recorded in transformLog), and finish. -/
def fetchFresh (env : FetchEnv) (g1 : GState) (id : String) (t : Nat) :
    (Except BuildErr (ModEntry × Option ModuleJSONM)) × GState :=
  let g2 : GState := { g1 with loadLog := g1.loadLog ++ [id] }
  match env.load id with
  | .error _ => (.error (.loadFail id), g2)
  | .ok lv =>
    match validateLoad lv with
    | none => (.error (.badLoader id), g2)
    | some code =>
      match lookupKey env.cachedModules id with
      | some cm =>
        if cm.customTransformCache = false && cm.originalCode == code then
          finishFetch
            { g2 with emittedAssets := g2.emittedAssets ++ cm.transformAssets.getD [] }
            id t cm
        else
          finishFetch { g2 with transformLog := g2.transformLog ++ [id] } id t
            (env.transform code)
      | none =>
        finishFetch { g2 with transformLog := g2.transformLog ++ [id] } id t
          (env.transform code)

/-- Graph.fetchModule: short-circuit when the id is already registered
(error when it is external), otherwise create a fresh Module, register it in
moduleById and watchFiles synchronously, and continue with fetchFresh. The
second result component is the ModuleJSON passed to setSource (none on the
short-circuit path). -/
def fetchModule (env : FetchEnv) (g : GState) (id : String) :
    (Except BuildErr (ModEntry × Option ModuleJSONM)) × GState :=
  match lookupKey g.moduleById id with
  | some (.ext _) => (.error (.externalFetch id), g)
  | some (.mod t) => (.ok (.mod t, none), g)
  | none =>
    fetchFresh env
      { g with moduleById := mapSet g.moduleById id (.mod g.nextToken),
               watchFiles := g.watchFiles ++ [id],
               nextToken := g.nextToken + 1 }
      id g.nextToken

/-- A sequence of fetchModule calls; a fatal error aborts the build, leaving
the state reached at the failure. -/
def runFetches (env : FetchEnv) : GState → List String → GState
  | g, [] => g
  | g, id :: rest =>
    match fetchModule env g id with
    | (.ok _, g') => runFetches env g' rest
    | (.error _, g') => g'

/-- Modelled from the spec: the plugin driver dispatch for the load hook
(utils/pluginDriver is not part of src). hookFirst invokes the registered
plugins in order and returns the first non-nullish result; when every plugin
returns nullish, the host disk-read fallback supplies the file contents as a
string. -/
def hookFirstLoad : List LoadValue → String → LoadValue
  | [], diskContents => .str diskContents
  | p :: rest, diskContents =>
    if p = .nullish then hookFirstLoad rest diskContents else p

/-- First non-nullish plugin result, if any. -/
def firstNonNullish : List LoadValue → Option LoadValue
  | [] => none
  | p :: rest => if p = .nullish then firstNonNullish rest else some p

/-- Recorded outcome of one dynamic-import resolution slot
(module.dynamicImportResolutions entries; the alias computed by
utils/getAliasName is not tracked since no property mentions it). -/
inductive DynResolution where
  | unresolved
  | exprReplacement (code : String)
  | resolved (e : ModEntry)
  | fetchInternal (id : String)
deriving DecidableEq

/-- The per-expression body of the dynamic-import fan-out in
fetchAllDependencies: a falsy replacement leaves the slot unresolved; a
non-string import expression records the replacement as-is; a string
specifier classified external creates or reuses an external module and marks
exportsNamespace on it; otherwise the caller recurses into fetchModule. In
the creation branch the source inserts the iterated importer module object
into moduleById under the replacement id, not the freshly created
ExternalModule, which this embedding reproduces. -/
def dynamicImportStep (isExt : String → String → Bool → Bool)
    (g : GState) (importer : ModEntry) (importerId : String)
    (exprIsString : Bool) (replacement : Option String) : DynResolution × GState :=
  match replacement with
  | none => (.unresolved, g)
  | some repl =>
    if exprIsString = false then (.exprReplacement repl, g)
    else if isExt repl importerId true then
      match lookupKey g.moduleById repl with
      | none =>
        let t := g.nextToken
        (.resolved (.ext t),
         { g with
             nextToken := t + 1,
             externalModules := g.externalModules ++ [t],
             moduleById := mapSet g.moduleById repl importer,
             extNamespaceTokens := g.extNamespaceTokens ++ [t] })
      | some e =>
        (.resolved e, { g with extNamespaceTokens := g.extNamespaceTokens ++ [e.token] })
    else (.fetchInternal repl, g)

/-- One entry of module.imports: the local binding name under which it is
enumerated, the source specifier of its import declaration and the imported
name. -/
structure ImportDecl where
  localName : String
  source : String
  name : String
deriving DecidableEq

/-- The loop over module.imports in the external branch of the static
dependency handler, which calls externalModule.traceExport for matching
declarations. The source exits the whole handler with a return statement at
the first declaration whose source differs from the current specifier, so
only the leading run of matching declarations is traced; this embedding
returns the list of traced imported names. -/
def traceExternalImports (imports : List ImportDecl) (source : String) : List String :=
  match imports with
  | [] => []
  | d :: rest =>
    if d.source ≠ source then []
    else d.name :: traceExternalImports rest source

/-- The shapes options.external can take. -/
inductive ExternalOption where
  | fn (f : String → Option String → Bool → Bool)
  | arr (ids : List String)
  | single (id : String)
  | noneOpt

/-- The id set built for the non-function branch of the constructor:
new Set(Array.isArray(external) ? external : external ? [external] : []). -/
def externalIdSet : ExternalOption → List String
  | .fn _ => []
  | .arr ids => ids
  | .single i => [i]
  | .noneOpt => []

/-- JavaScript String.prototype.startsWith, expressed on the underlying
character sequences. -/
def jsStartsWith (s p : String) : Bool := p.data.isPrefixOf s.data

/-- The isExternal classifier installed by the Graph constructor: when
options.external is a function the classifier rejects ids starting with the
null byte before consulting it; otherwise the classifier is plain membership
in the id set. -/
def mkIsExternal (opt : ExternalOption) : String → Option String → Bool → Bool :=
  match opt with
  | .fn f => fun id parentId isResolved => !(jsStartsWith id "\x00") && f id parentId isResolved
  | other => fun id _ _ => (externalIdSet other).contains id

/-- The settled result of resolving a static import specifier: a string id,
the explicit false signal, or a nullish value. -/
inductive ResolveIdResult where
  | str (s : String)
  | fls
  | nullish
deriving DecidableEq

/-- JavaScript truthiness of a resolveId result (the empty string is falsy). -/
def jsTruthy : ResolveIdResult → Bool
  | .str s => s ≠ ""
  | _ => false

/-- Outcome of the static dependency handler for one specifier. -/
inductive StaticDepOutcome where
  | fatalUnresolvedImport
  | external (warned : Bool) (externalId : String)
  | fetchInternal (resolvedId : String)
deriving DecidableEq

/-- The decision logic of the static branch of fetchAllDependencies once the
resolveId result is settled: derive externalId from the resolved string or
from the specifier (resolved against the importing module id when relative,
via utils/path which is not part of src and is therefore a parameter here),
classify externality, escalate unresolved relative specifiers to a fatal
UNRESOLVED_IMPORT, downgrade unresolved bare specifiers to a warning plus
external treatment, and otherwise recurse into fetchModule. -/
def resolveStaticDependency (isExt : String → String → Bool → Bool)
    (isRel : String → Bool) (resolvePath : String → String → String)
    (moduleId source : String) (resolvedId : ResolveIdResult) : StaticDepOutcome :=
  let fallbackId := if isRel source then resolvePath moduleId source else source
  let externalId :=
    match resolvedId with
    | .str s => if s ≠ "" then s else fallbackId
    | _ => fallbackId
  let isExternal0 := resolvedId == .fls || isExt externalId moduleId true
  if !(jsTruthy resolvedId) && !isExternal0 then
    if isRel source then .fatalUnresolvedImport
    else .external (resolvedId != .fls) externalId
  else
    if isExternal0 then .external false externalId
    else
      .fetchInternal (match resolvedId with | .str s => s | _ => "")

/-- The own-export registration loop run after fetchAllDependencies: every
exported name other than default is entered into exportsAll mapped to the
module id; the accumulator is the exportsAll object. -/
def addOwnExports (moduleId : String) : List String → List (String × String) → List (String × String)
  | [], acc => acc
  | n :: rest, acc =>
    addOwnExports moduleId rest (if n = "default" then acc else mapSet acc n moduleId)

/-- The module attributes the chunk partitioner reads: the id, the 16-byte
entryPointsHash and the execution index assigned by the execution-order
analyzer. -/
structure ModuleC where
  mid : String
  entryPointsHash : List Nat
  execIndex : Nat
deriving DecidableEq

/-- Modelled from the spec: hexadecimal digit character. -/
def hexDigitChar (d : Nat) : Char :=
  if d < 10 then Char.ofNat (48 + d) else Char.ofNat (87 + d)

/-- Modelled from the spec: two-character hexadecimal rendering of one byte. -/
def byteToHex (b : Nat) : String :=
  String.mk [hexDigitChar (b / 16 % 16), hexDigitChar (b % 16)]

/-- Modelled from the spec: utils/entryHashing.Uint8ArrayToHexString (not
part of src) hex-encodes the entryPointsHash bytes. -/
def Uint8ArrayToHexString (bytes : List Nat) : String :=
  String.join (bytes.map byteToHex)

/-- The chunk-colouring key of a module: the hex encoding of its
entryPointsHash, as computed in the grouping loop of build. -/
def chunkKey (m : ModuleC) : String :=
  Uint8ArrayToHexString m.entryPointsHash

/-- One step of the grouping loop in build: push the module onto the bucket
for its key, creating the bucket at the end when absent (plain-object key
insertion order). -/
def addToChunkMap (cm : List (String × List ModuleC)) (k : String) (m : ModuleC) :
    List (String × List ModuleC) :=
  match cm with
  | [] => [(k, [m])]
  | (k', ms) :: rest =>
    if k' = k then (k', ms ++ [m]) :: rest else (k', ms) :: addToChunkMap rest k m

/-- The chunkModules dictionary built by iterating orderedModules. -/
def buildChunkMap (ms : List ModuleC) : List (String × List ModuleC) :=
  ms.foldl (fun cm m => addToChunkMap cm (chunkKey m) m) []

/-- Ordered insertion by execution index. -/
def insertByExec (m : ModuleC) : List ModuleC → List ModuleC
  | [] => [m]
  | x :: rest =>
    if m.execIndex ≤ x.execIndex then m :: x :: rest else x :: insertByExec m rest

/-- Modelled from the spec: utils/execution-order.sortByExecutionOrder (not
part of src) sorts a module list by execution order. -/
def sortByExecutionOrder : List ModuleC → List ModuleC
  | [] => []
  | m :: rest => insertByExec m (sortByExecutionOrder rest)

/-- The chunk lists produced by the non-preserveModules branch of build:
each bucket of the chunkModules dictionary, sorted by execution order, in
key insertion order. -/
def buildChunks (ms : List ModuleC) : List (List ModuleC) :=
  (buildChunkMap ms).map (fun p => sortByExecutionOrder p.2)

/-- Global inclusion state of the tree-shaker: for each module of
orderedModules, one inclusion flag per statement. -/
abbrev IncState := List (List Bool)

/-- Pointwise growth of the inclusion flags of one module. -/
def flagsLe (a b : List Bool) : Prop :=
  List.Forall₂ (fun p q => p = true → q = true) a b

/-- Pointwise growth of the global inclusion state. -/
def stateLe (s s' : IncState) : Prop :=
  List.Forall₂ flagsLe s s'

/-- Total number of set inclusion flags. -/
def flagsOn : IncState → Nat
  | [] => 0
  | m :: rest => m.count true + flagsOn rest

/-- Total number of inclusion flags. -/
def stateCapacity : IncState → Nat
  | [] => 0
  | m :: rest => m.length + stateCapacity rest

/-- One tree-shaking pass over the module indices: run include on each
module in order, accumulating whether any call reported a change. -/
def passAux (inc : Nat → IncState → Bool × IncState) :
    List Nat → IncState → Bool → IncState × Bool
  | [], s, changed => (s, changed)
  | i :: rest, s, changed =>
    passAux inc rest (inc i s).2 (changed || (inc i s).1)

/-- One iteration of the do-while body in includeMarked: a full pass over
orderedModules starting with needsTreeshakingPass set to false. -/
def treePass (inc : Nat → IncState → Bool × IncState) (is : List Nat) (s : IncState) :
    IncState × Bool :=
  passAux inc is s false

/-- The do-while loop of includeMarked, driven by explicit fuel: run a pass
and repeat while some include call reported a change. -/
def includeMarkedFuel (inc : Nat → IncState → Bool × IncState) (is : List Nat) :
    Nat → IncState → IncState
  | 0, s => s
  | fuel + 1, s =>
    if (treePass inc is s).2 then includeMarkedFuel inc is fuel (treePass inc is s).1
    else (treePass inc is s).1

/-- The single loop of the non-treeshaking branch of includeMarked: call
includeAllInBundle once per module, counting the calls. -/
def includeAllLoop (iab : List Bool → List Bool) : IncState → IncState × Nat
  | [] => ([], 0)
  | m :: rest => ((iab m) :: (includeAllLoop iab rest).1, (includeAllLoop iab rest).2 + 1)

/-- Graph.includeMarked: with tree-shaking enabled, iterate passes until a
pass reports no change (the fuel bound stateCapacity + 1 is shown sufficient
below); with tree-shaking disabled, run includeAllInBundle once per module.
The include and includeAllInBundle behaviors live in the AST layer outside
src and are parameters, constrained in the theorems exactly by the
monotonicity stated in the spec. -/
def includeMarked (treeshake : Bool) (inc : Nat → IncState → Bool × IncState)
    (iab : List Bool → List Bool) (is : List Nat) (s : IncState) : IncState :=
  if treeshake then includeMarkedFuel inc is (stateCapacity s + 1) s
  else (includeAllLoop iab s).1

/-- A fresh graph state with nothing registered. -/
def gInit : GState :=
  { moduleById := [], watchFiles := [], modules := [], externalModules := [],
    extNamespaceTokens := [], loadLog := [], transformLog := [], emittedAssets := [],
    nextToken := 0 }

/-- A concrete transform pipeline used by concrete instantiations below. -/
def transform0 : String → ModuleJSONM :=
  fun c => { mid := "t", originalCode := c, customTransformCache := false,
             transformAssets := none, tcode := c }

/-- A concrete fetch environment whose load hook always yields a string. -/
def env0 : FetchEnv :=
  { load := fun _ => .ok (.str "code"), transform := transform0, cachedModules := [] }

/-- A concrete cached module whose originalCode matches the load result
below and which carries transform assets. -/
def cmCached : ModuleJSONM :=
  { mid := "a", originalCode := "src", customTransformCache := false,
    transformAssets := some [("logo.svg", "data")], tcode := "out" }

/-- A concrete fetch environment with a warm cache entry for id a. -/
def envCache : FetchEnv :=
  { load := fun _ => .ok (.str "src"), transform := transform0,
    cachedModules := [("a", cmCached)] }

/-- A graph state in which only the importing module main is registered. -/
def gExampleDyn : GState :=
  { gInit with moduleById := [("main", .mod 0)], modules := [0], nextToken := 1 }

theorem lookupKey_mapSet_self {β : Type} (m : List (String × β)) (k : String) (v : β) :
    lookupKey (mapSet m k v) k = some v := by
  induction m with
  | nil => simp [mapSet, lookupKey]
  | cons p rest ih =>
    by_cases h : p.1 = k
    · simp [mapSet, h, lookupKey]
    · simp [mapSet, h, lookupKey, ih]

theorem lookupKey_mapSet_ne {β : Type} (m : List (String × β)) (k k' : String) (v : β)
    (h : k' ≠ k) : lookupKey (mapSet m k v) k' = lookupKey m k' := by
  have hk : ¬ k = k' := fun hh => h hh.symm
  induction m with
  | nil => simp [mapSet, lookupKey, hk]
  | cons p rest ih =>
    by_cases hp : p.1 = k
    · subst hp
      simp [mapSet, lookupKey, hk, ih]
    · simp only [mapSet, hp, if_false, lookupKey]
      by_cases hq : p.1 = k'
      · simp [hq]
      · simp [hq, ih]

theorem lookupKey_mapSet_isSome {β : Type} (m : List (String × β)) (k j : String) (v : β)
    (h : (lookupKey m j).isSome = true) :
    (lookupKey (mapSet m k v) j).isSome = true := by
  by_cases hj : j = k
  · subst hj; simp [lookupKey_mapSet_self]
  · rw [lookupKey_mapSet_ne m k j v hj]; exact h

theorem countId_append (x : String) (l1 l2 : List String) :
    countId x (l1 ++ l2) = countId x l1 + countId x l2 := by
  induction l1 with
  | nil => simp [countId]
  | cons y rest ih => simp [countId, ih]; omega

theorem addOwnExports_lookup (moduleId : String) (names : List String)
    (acc : List (String × String)) (n : String) :
    lookupKey (addOwnExports moduleId names acc) n =
      if n ∈ names ∧ n ≠ "default" then some moduleId else lookupKey acc n := by
  induction names generalizing acc with
  | nil => simp [addOwnExports]
  | cons m rest ih =>
    simp only [addOwnExports]
    by_cases hm : m = "default"
    · subst hm
      rw [if_pos rfl, ih]
      have hiff : (n ∈ rest ∧ n ≠ "default") ↔ (n ∈ "default" :: rest ∧ n ≠ "default") := by
        constructor
        · rintro ⟨h1, h2⟩; exact ⟨List.mem_cons_of_mem _ h1, h2⟩
        · rintro ⟨h1, h2⟩
          rcases List.mem_cons.mp h1 with h | h
          · exact absurd h h2
          · exact ⟨h, h2⟩
      exact if_congr hiff rfl rfl
    · rw [if_neg hm, ih]
      by_cases hn : n ∈ rest ∧ n ≠ "default"
      · rw [if_pos hn, if_pos ⟨List.mem_cons_of_mem _ hn.1, hn.2⟩]
      · rw [if_neg hn]
        by_cases hnm : n = m
        · subst hnm
          rw [lookupKey_mapSet_self, if_pos ⟨List.mem_cons_self _ _, hm⟩]
        · rw [lookupKey_mapSet_ne acc m n moduleId hnm]
          have : ¬ (n ∈ m :: rest ∧ n ≠ "default") := by
            rintro ⟨h1, h2⟩
            rcases List.mem_cons.mp h1 with h | h
            · exact hnm h
            · exact hn ⟨h, h2⟩
          rw [if_neg this]

/-- C1: the dynamic-import external branch of fetchAllDependencies on a
concrete input. The importing module main (token 0) dynamically imports the
string specifier ext, which is classified external and not yet registered.
The freshly created ExternalModule (token 1) is recorded as the resolution
and pushed onto externalModules, but moduleById maps the replacement id to
the importing module object (token 0), not to the ExternalModule,
contradicting the claimed property. -/
theorem dynamicImport_registers_importer_under_replacement_id :
    (dynamicImportStep (fun r _ _ => r == "ext") gExampleDyn (.mod 0) "main" true
        (some "ext")).1 = .resolved (.ext 1)
    ∧ (dynamicImportStep (fun r _ _ => r == "ext") gExampleDyn (.mod 0) "main" true
        (some "ext")).2.externalModules = [1]
    ∧ lookupKey (dynamicImportStep (fun r _ _ => r == "ext") gExampleDyn (.mod 0) "main" true
        (some "ext")).2.moduleById "ext" = some (.mod 0)
    ∧ (ModEntry.mod 0) ≠ (ModEntry.ext 1) := by
  exact ⟨rfl, rfl, rfl, by decide⟩

/-- C3: the imports loop of the static external branch on a concrete input.
The module imports aName from specifier other and bName from specifier ext;
when ext resolves external, the loop exits at the first declaration whose
source differs, so the matching declaration bName is never traced, although
the filter of matching declarations is nonempty. -/
theorem traceExternalImports_stops_at_first_mismatch :
    traceExternalImports
        [{localName := "a", source := "other", name := "aName"},
         {localName := "b", source := "ext", name := "bName"}] "ext" = []
    ∧ (List.filter (fun d => d.source == "ext")
        [({localName := "a", source := "other", name := "aName"} : ImportDecl),
         {localName := "b", source := "ext", name := "bName"}]).map
        (fun d => d.name) = ["bName"] := by
  exact ⟨rfl, rfl⟩

/-- C4 counterexample: with options.external supplied as an array containing
an id that begins with the null byte, the installed classifier reports that
id as external, so the claimed guard does not hold for the array form. -/
theorem isExternal_nullByte_array_counterexample :
    jsStartsWith "\x00x" "\x00" = true
    ∧ mkIsExternal (.arr ["\x00x"]) "\x00x" none true = true := by
  exact ⟨by decide, rfl⟩

/-- C4 amended: when options.external is supplied as a function, the Graph
constructor wraps it so that every id beginning with the null byte is
classified non-external; when it is supplied as an array, classification is
plain membership and no null-byte guard applies. -/
theorem isExternal_fn_rejects_nullByte (f : String → Option String → Bool → Bool)
    (id : String) (parentId : Option String) (isResolved : Bool)
    (h : jsStartsWith id "\x00" = true) :
    mkIsExternal (.fn f) id parentId isResolved = false := by
  simp [mkIsExternal, h]

theorem isExternal_fn_rejects_nullByte_witness :
    mkIsExternal (.fn (fun _ _ _ => true)) "\x00x" none true = false :=
  isExternal_fn_rejects_nullByte (fun _ _ _ => true) "\x00x" none true (by decide)

/-- C10: after the own-export registration loop that follows
fetchAllDependencies, exportsAll contains no binding for default, maps every
other own exported name to the module id, and contains nothing else, so
export-star flattening never propagates a default export from this map. -/
theorem exportsAll_excludes_default (moduleId : String) (names : List String) :
    lookupKey (addOwnExports moduleId names []) "default" = none
    ∧ (∀ n, n ∈ names → n ≠ "default" →
        lookupKey (addOwnExports moduleId names []) n = some moduleId)
    ∧ (∀ n, n ∉ names → lookupKey (addOwnExports moduleId names []) n = none) := by
  refine ⟨?_, ?_, ?_⟩
  · rw [addOwnExports_lookup]
    simp [lookupKey]
  · intro n h1 h2
    rw [addOwnExports_lookup, if_pos ⟨h1, h2⟩]
  · intro n h1
    rw [addOwnExports_lookup]
    have : ¬ (n ∈ names ∧ n ≠ "default") := fun hc => h1 hc.1
    rw [if_neg this]
    simp [lookupKey]

theorem exportsAll_excludes_default_witness :
    lookupKey (addOwnExports "m" ["default", "x"] []) "default" = none
    ∧ lookupKey (addOwnExports "m" ["default", "x"] []) "x" = some "m" := by
  have h := exportsAll_excludes_default "m" ["default", "x"]
  exact ⟨h.1, h.2.1 "x" (by decide) (by decide)⟩

/-- C6: during static-dependency resolution, when resolveId settles nullish
and the derived external id is not classified external, a relative specifier
escalates to the fatal UNRESOLVED_IMPORT error while a bare specifier is
downgraded to a warned external dependency whose external id is the
specifier itself; when resolveId settles false, the specifier is treated as
external without a warning. -/
theorem resolveStaticDependency_unresolved (isExt : String → String → Bool → Bool)
    (isRel : String → Bool) (resolvePath : String → String → String)
    (moduleId source : String)
    (h : isExt (if isRel source then resolvePath moduleId source else source) moduleId true
      = false) :
    resolveStaticDependency isExt isRel resolvePath moduleId source .nullish =
      (if isRel source then .fatalUnresolvedImport else .external true source)
    ∧ resolveStaticDependency isExt isRel resolvePath moduleId source .fls =
      .external false (if isRel source then resolvePath moduleId source else source) := by
  by_cases hr : isRel source
  · rw [if_pos hr] at h
    constructor
    · simp [resolveStaticDependency, jsTruthy, hr, h]
    · simp [resolveStaticDependency, jsTruthy, hr, h]
  · rw [if_neg hr] at h
    constructor
    · simp [resolveStaticDependency, jsTruthy, hr, h]
    · simp [resolveStaticDependency, jsTruthy, hr, h]

theorem resolveStaticDependency_unresolved_witness :
    resolveStaticDependency (fun _ _ _ => false) (fun s => jsStartsWith s "./")
      (fun a b => a ++ "/" ++ b) "/main.js" "dep" .nullish = .external true "dep" := by
  have h := resolveStaticDependency_unresolved (fun _ _ _ => false)
    (fun s => jsStartsWith s "./") (fun a b => a ++ "/" ++ b) "/main.js" "dep" (by rfl)
  have hr : jsStartsWith "dep" "./" = false := by decide
  simpa [hr] using h.1

/-- C7: when a cached module exists for the fetched id whose originalCode
equals the validated load result and whose customTransformCache is unset,
fetchModule returns the cached ModuleJSON verbatim as the module source, the
transform pipeline is not invoked, and the cached transform assets are
re-emitted. -/
theorem fetchModule_cache_hit (env : FetchEnv) (g : GState) (id : String)
    (cm : ModuleJSONM) (lv : LoadValue) (code : String)
    (h0 : lookupKey g.moduleById id = none)
    (h1 : env.load id = .ok lv)
    (h2 : validateLoad lv = some code)
    (h3 : lookupKey env.cachedModules id = some cm)
    (h4 : cm.customTransformCache = false)
    (h5 : cm.originalCode = code) :
    (fetchModule env g id).1 = .ok (.mod g.nextToken, some cm)
    ∧ (fetchModule env g id).2.transformLog = g.transformLog
    ∧ (fetchModule env g id).2.emittedAssets
        = g.emittedAssets ++ cm.transformAssets.getD [] := by
  simp [fetchModule, h0, fetchFresh, h1, h2, h3, h4, h5, finishFetch]

theorem fetchModule_cache_hit_witness :
    (fetchModule envCache gInit "a").1 = .ok (.mod 0, some cmCached)
    ∧ (fetchModule envCache gInit "a").2.transformLog = []
    ∧ (fetchModule envCache gInit "a").2.emittedAssets = [("logo.svg", "data")] := by
  have h := fetchModule_cache_hit envCache gInit "a" cmCached (.str "src") "src"
    rfl rfl rfl rfl rfl rfl
  simpa [gInit, cmCached] using h

theorem hookFirstLoad_eq (plugins : List LoadValue) (disk : String) :
    hookFirstLoad plugins disk = (firstNonNullish plugins).getD (.str disk) := by
  induction plugins with
  | nil => rfl
  | cons p rest ih =>
    by_cases hp : p = .nullish <;> simp [hookFirstLoad, firstNonNullish, hp, ih]

theorem fetchFresh_badLoader (env : FetchEnv) (g1 : GState) (id : String) (t : Nat)
    (lv : LoadValue) (h1 : env.load id = .ok lv) :
    ((fetchFresh env g1 id t).1 = .error (.badLoader id) ↔ validateLoad lv = none) := by
  simp only [fetchFresh, h1]
  cases hv : validateLoad lv with
  | none => simp [hv]
  | some code =>
    simp only [hv]
    cases hc : lookupKey env.cachedModules id with
    | none => simp [hc, finishFetch]
    | some cm =>
      simp only [hc]
      split <;> simp [finishFetch]

/-- C5: with the plugin driver dispatch and disk fallback modelled from the
spec, fetchModule fails with BAD_LOADER exactly when the first non-nullish
plugin load result is neither a string nor an object with a string code
property; when every plugin returns nullish, the settled result is the disk
contents as a string and no BAD_LOADER error is produced. -/
theorem fetchModule_badLoader_iff (plugins : List LoadValue) (disk : String)
    (transformF : String → ModuleJSONM) (cached : List (String × ModuleJSONM))
    (g : GState) (id : String)
    (h0 : lookupKey g.moduleById id = none) :
    ((fetchModule ⟨fun _ => .ok (hookFirstLoad plugins disk), transformF, cached⟩ g id).1
        = .error (.badLoader id)
      ↔ ∃ v, firstNonNullish plugins = some v ∧ validateLoad v = none)
    ∧ (firstNonNullish plugins = none →
        hookFirstLoad plugins disk = .str disk
        ∧ (fetchModule ⟨fun _ => .ok (hookFirstLoad plugins disk), transformF, cached⟩ g id).1
            ≠ .error (.badLoader id)) := by
  have hmain : (fetchModule ⟨fun _ => .ok (hookFirstLoad plugins disk), transformF, cached⟩
      g id).1 = .error (.badLoader id) ↔ validateLoad (hookFirstLoad plugins disk) = none := by
    simp only [fetchModule, h0]
    exact fetchFresh_badLoader _ _ id g.nextToken (hookFirstLoad plugins disk) rfl
  constructor
  · rw [hmain, hookFirstLoad_eq]
    cases hf : firstNonNullish plugins with
    | none => simp [validateLoad]
    | some v => simp
  · intro hf
    have hd : hookFirstLoad plugins disk = .str disk := by
      rw [hookFirstLoad_eq, hf]; rfl
    refine ⟨hd, fun hcontra => ?_⟩
    rw [hmain, hd] at hcontra
    simp [validateLoad] at hcontra

theorem fetchModule_badLoader_iff_witness :
    ((fetchModule ⟨fun _ => .ok (hookFirstLoad [.nullish, .other] "d"), transform0, []⟩
        gInit "a").1 = .error (.badLoader "a")
      ↔ ∃ v, firstNonNullish [.nullish, .other] = some v ∧ validateLoad v = none)
    ∧ (fetchModule ⟨fun _ => .ok (hookFirstLoad [.nullish, .other] "d"), transform0, []⟩
        gInit "a").1 = .error (.badLoader "a") := by
  have h := fetchModule_badLoader_iff [.nullish, .other] "d" transform0 [] gInit "a" rfl
  refine ⟨h.1, ?_⟩
  rw [h.1]
  exact ⟨.other, rfl, rfl⟩

theorem fetchFresh_loadLog (env : FetchEnv) (g1 : GState) (id : String) (t : Nat) :
    (fetchFresh env g1 id t).2.loadLog = g1.loadLog ++ [id] := by
  unfold fetchFresh
  repeat' split
  all_goals simp [finishFetch]

theorem fetchFresh_moduleById (env : FetchEnv) (g1 : GState) (id : String) (t : Nat) :
    (fetchFresh env g1 id t).2.moduleById = g1.moduleById
    ∨ (fetchFresh env g1 id t).2.moduleById = mapSet g1.moduleById id (.mod t) := by
  unfold fetchFresh
  repeat' split
  all_goals simp [finishFetch]

theorem fetchFresh_preserves_isSome (env : FetchEnv) (g1 : GState) (id j : String) (t : Nat)
    (h : (lookupKey g1.moduleById j).isSome = true) :
    (lookupKey (fetchFresh env g1 id t).2.moduleById j).isSome = true := by
  rcases fetchFresh_moduleById env g1 id t with hm | hm <;> rw [hm]
  · exact h
  · exact lookupKey_mapSet_isSome _ id j _ h

theorem fetchModule_loadLog (env : FetchEnv) (g : GState) (id : String) :
    (fetchModule env g id).2.loadLog
      = g.loadLog ++ (if (lookupKey g.moduleById id).isSome then [] else [id]) := by
  unfold fetchModule
  cases hl : lookupKey g.moduleById id with
  | none => simp [fetchFresh_loadLog]
  | some e => cases e <;> simp

theorem fetchModule_self_isSome (env : FetchEnv) (g : GState) (id : String) :
    (lookupKey (fetchModule env g id).2.moduleById id).isSome = true := by
  unfold fetchModule
  cases hl : lookupKey g.moduleById id with
  | none =>
    apply fetchFresh_preserves_isSome
    simp [lookupKey_mapSet_self]
  | some e => cases e <;> simp [hl]

theorem fetchModule_preserves_isSome (env : FetchEnv) (g : GState) (id j : String)
    (h : (lookupKey g.moduleById j).isSome = true) :
    (lookupKey (fetchModule env g id).2.moduleById j).isSome = true := by
  unfold fetchModule
  cases hl : lookupKey g.moduleById id with
  | none =>
    apply fetchFresh_preserves_isSome
    simpa using lookupKey_mapSet_isSome g.moduleById id j _ h
  | some e => cases e <;> simpa using h

theorem runFetches_count (env : FetchEnv) (id : String) :
    ∀ (ids : List String) (g : GState),
      countId id (runFetches env g ids).loadLog
        ≤ countId id g.loadLog + (if (lookupKey g.moduleById id).isSome then 0 else 1) := by
  intro ids
  induction ids with
  | nil =>
    intro g
    simp only [runFetches]
    exact Nat.le_add_right _ _
  | cons i rest ih =>
    intro g
    rcases hfm : fetchModule env g i with ⟨r, g'⟩
    have hlog : g'.loadLog
        = g.loadLog ++ (if (lookupKey g.moduleById i).isSome then [] else [i]) := by
      have h := fetchModule_loadLog env g i
      rw [hfm] at h
      exact h
    have hs : (lookupKey g'.moduleById i).isSome = true := by
      have h := fetchModule_self_isSome env g i
      rw [hfm] at h
      exact h
    have hpres : (lookupKey g.moduleById id).isSome = true →
        (lookupKey g'.moduleById id).isSome = true := by
      intro hh
      have h := fetchModule_preserves_isSome env g i id hh
      rw [hfm] at h
      exact h
    have hrun : runFetches env g (i :: rest)
        = (match (r, g') with
            | (Except.ok _, g') => runFetches env g' rest
            | (Except.error _, g') => g') := by
      simp only [runFetches, hfm]
    rw [hrun]
    have hcg : countId id g'.loadLog
        = countId id g.loadLog
          + (if (lookupKey g.moduleById i).isSome then 0 else if i = id then 1 else 0) := by
      rw [hlog, countId_append]
      cases hl : (lookupKey g.moduleById i).isSome <;> simp [countId]
    cases r with
    | error e =>
      show countId id g'.loadLog
          ≤ countId id g.loadLog + (if (lookupKey g.moduleById id).isSome then 0 else 1)
      rw [hcg]
      by_cases hi : i = id
      · subst hi
        cases hl : (lookupKey g.moduleById i).isSome <;> simp [hl]
      · have hextra :
            (if (lookupKey g.moduleById i).isSome then (0 : Nat) else if i = id then 1 else 0)
              = 0 := by
          cases hl : (lookupKey g.moduleById i).isSome <;> simp [hi]
        rw [hextra, Nat.add_zero]
        exact Nat.le_add_right _ _
    | ok v =>
      show countId id (runFetches env g' rest).loadLog
          ≤ countId id g.loadLog + (if (lookupKey g.moduleById id).isSome then 0 else 1)
      have hih := ih g'
      by_cases hi : i = id
      · subst hi
        cases hl : (lookupKey g.moduleById i).isSome <;>
          simp [hl, hcg, hs] at hih ⊢ <;> omega
      · have hextra :
            (if (lookupKey g.moduleById i).isSome then (0 : Nat) else if i = id then 1 else 0)
              = 0 := by
          cases hl : (lookupKey g.moduleById i).isSome <;> simp [hi]
        rw [hextra, Nat.add_zero] at hcg
        rw [hcg] at hih
        by_cases hl : (lookupKey g.moduleById id).isSome = true
        · have h2 := hpres hl
          simp [hl, h2] at hih ⊢
          omega
        · simp only [Bool.not_eq_true] at hl
          simp [hl]
          cases hl2 : (lookupKey g'.moduleById id).isSome <;> simp [hl2] at hih <;> omega

/-- C2: the load hook runs at most once per id. On a first fetch the fresh
module is registered in moduleById and the id added to watchFiles before the
continuation that invokes the load hook runs (fetchFresh receives the
already-registered state); a later fetch of an id registered as non-external
returns the same module object with the state untouched and no load
invocation; and across any sequence of fetchModule calls the load log gains
at most one occurrence of an id, none when the id is already registered. -/
theorem fetchModule_load_at_most_once (env : FetchEnv) (g : GState) (id : String) (t : Nat)
    (ids : List String) :
    (lookupKey g.moduleById id = none →
      fetchModule env g id =
        fetchFresh env
          { g with moduleById := mapSet g.moduleById id (.mod g.nextToken),
                   watchFiles := g.watchFiles ++ [id],
                   nextToken := g.nextToken + 1 } id g.nextToken
      ∧ lookupKey (mapSet g.moduleById id (ModEntry.mod g.nextToken)) id
          = some (.mod g.nextToken)
      ∧ id ∈ g.watchFiles ++ [id])
    ∧ (lookupKey g.moduleById id = some (.mod t) →
      fetchModule env g id = (.ok (.mod t, none), g))
    ∧ countId id (runFetches env g ids).loadLog
        ≤ countId id g.loadLog + (if (lookupKey g.moduleById id).isSome then 0 else 1) := by
  refine ⟨?_, ?_, runFetches_count env id ids g⟩
  · intro h
    exact ⟨by simp [fetchModule, h], lookupKey_mapSet_self _ _ _, by simp⟩
  · intro h
    simp [fetchModule, h]

theorem fetchModule_load_at_most_once_witness :
    fetchModule env0 gInit "a" =
      fetchFresh env0
        { gInit with moduleById := mapSet gInit.moduleById "a" (.mod gInit.nextToken),
                     watchFiles := gInit.watchFiles ++ ["a"],
                     nextToken := gInit.nextToken + 1 } "a" gInit.nextToken
    ∧ countId "a" (runFetches env0 gInit ["a", "a"]).loadLog ≤ 1 := by
  have h := fetchModule_load_at_most_once env0 gInit "a" 0 ["a", "a"]
  refine ⟨(h.1 rfl).1, ?_⟩
  have h3 := h.2.2
  have hone : countId "a" gInit.loadLog
      + (if (lookupKey gInit.moduleById "a").isSome then 0 else 1) = 1 := by
    simp [gInit, countId, lookupKey]
  exact hone ▸ h3

theorem lookupKey_eq_none_iff {β : Type} (m : List (String × β)) (k : String) :
    lookupKey m k = none ↔ k ∉ m.map Prod.fst := by
  induction m with
  | nil => simp [lookupKey]
  | cons p rest ih =>
    simp only [lookupKey, List.map_cons, List.mem_cons]
    by_cases hp : p.1 = k
    · simp [hp]
    · simp only [hp, if_false, ih]
      constructor
      · intro h hc
        rcases hc with hc | hc
        · exact hp hc.symm
        · exact h hc
      · intro h hc
        exact h (Or.inr hc)

theorem lookupKey_of_mem_nodup {β : Type} (m : List (String × β)) (k : String) (b : β)
    (hn : (m.map Prod.fst).Nodup) (hm : (k, b) ∈ m) : lookupKey m k = some b := by
  induction m with
  | nil => cases hm
  | cons p rest ih =>
    have hn' : p.1 ∉ rest.map Prod.fst ∧ (rest.map Prod.fst).Nodup := by
      rw [List.map_cons, List.nodup_cons] at hn
      exact hn
    rcases List.mem_cons.mp hm with h | h
    · subst h
      simp [lookupKey]
    · have hk : k ∈ rest.map Prod.fst := List.mem_map.mpr ⟨(k, b), h, rfl⟩
      have hp : p.1 ≠ k := by
        intro hpk
        exact hn'.1 (hpk ▸ hk)
      simp only [lookupKey, hp, if_false]
      exact ih hn'.2 h

theorem mem_of_lookupKey {β : Type} (m : List (String × β)) (k : String) (b : β)
    (h : lookupKey m k = some b) : (k, b) ∈ m := by
  induction m with
  | nil => simp [lookupKey] at h
  | cons p rest ih =>
    by_cases hp : p.1 = k
    · simp only [lookupKey, hp, if_true] at h
      injection h with hb
      have hkb : (k, b) = p := by
        rw [← hp, ← hb]
      rw [hkb]
      exact List.mem_cons_self _ _
    · simp only [lookupKey, hp, if_false] at h
      exact List.mem_cons_of_mem _ (ih h)

theorem lookupKey_addToChunkMap_self (cm : List (String × List ModuleC)) (k : String)
    (m : ModuleC) :
    lookupKey (addToChunkMap cm k m) k = some ((lookupKey cm k).getD [] ++ [m]) := by
  induction cm with
  | nil => simp [addToChunkMap, lookupKey]
  | cons p rest ih =>
    by_cases hp : p.1 = k
    · rcases p with ⟨k', ms⟩
      simp only at hp
      subst hp
      simp [addToChunkMap, lookupKey]
    · rcases p with ⟨k', ms⟩
      simp only at hp
      simp [addToChunkMap, lookupKey, hp, ih]

theorem lookupKey_addToChunkMap_ne (cm : List (String × List ModuleC)) (k k' : String)
    (m : ModuleC) (h : k' ≠ k) :
    lookupKey (addToChunkMap cm k m) k' = lookupKey cm k' := by
  have hk : ¬ k = k' := fun hh => h hh.symm
  induction cm with
  | nil => simp [addToChunkMap, lookupKey, hk]
  | cons p rest ih =>
    rcases p with ⟨k0, ms⟩
    by_cases hp : k0 = k
    · subst hp
      simp [addToChunkMap, lookupKey, hk]
    · simp only [addToChunkMap, hp, if_false, lookupKey]
      by_cases hq : k0 = k'
      · simp [hq]
      · simp [hq, ih]

theorem buildChunkMap_fold_getD (ms : List ModuleC) :
    ∀ (cm : List (String × List ModuleC)) (k : String),
      (lookupKey (ms.foldl (fun cm m => addToChunkMap cm (chunkKey m) m) cm) k).getD []
        = (lookupKey cm k).getD [] ++ ms.filter (fun m => chunkKey m == k) := by
  induction ms with
  | nil => intro cm k; simp
  | cons m rest ih =>
    intro cm k
    simp only [List.foldl_cons, List.filter_cons]
    rw [ih]
    by_cases hk : chunkKey m = k
    · subst hk
      rw [lookupKey_addToChunkMap_self]
      simp
    · rw [lookupKey_addToChunkMap_ne cm (chunkKey m) k m (fun hh => hk hh.symm)]
      have : (chunkKey m == k) = false := by
        simp [hk]
      simp [this]

theorem keys_addToChunkMap (cm : List (String × List ModuleC)) (k : String) (m : ModuleC) :
    (addToChunkMap cm k m).map Prod.fst
      = if (lookupKey cm k).isSome then cm.map Prod.fst else cm.map Prod.fst ++ [k] := by
  induction cm with
  | nil => simp [addToChunkMap, lookupKey]
  | cons p rest ih =>
    rcases p with ⟨k0, ms⟩
    by_cases hp : k0 = k
    · subst hp
      simp [addToChunkMap, lookupKey]
    · simp only [addToChunkMap, hp, if_false, List.map_cons, lookupKey, ih]
      by_cases hs : (lookupKey rest k).isSome = true
      · simp [hs]
      · simp only [Bool.not_eq_true] at hs
        simp [hs]

theorem nodup_keys_buildChunkMap (ms : List ModuleC) :
    ∀ (cm : List (String × List ModuleC)), (cm.map Prod.fst).Nodup →
      ((ms.foldl (fun cm m => addToChunkMap cm (chunkKey m) m) cm).map Prod.fst).Nodup := by
  induction ms with
  | nil => intro cm h; simpa using h
  | cons m rest ih =>
    intro cm h
    simp only [List.foldl_cons]
    apply ih
    rw [keys_addToChunkMap]
    by_cases hs : (lookupKey cm (chunkKey m)).isSome = true
    · simp [hs, h]
    · simp only [Bool.not_eq_true] at hs
      simp only [hs, Bool.false_eq_true, if_false]
      have hnotin : chunkKey m ∉ cm.map Prod.fst := by
        rw [← lookupKey_eq_none_iff]
        rcases hl : lookupKey cm (chunkKey m) with _ | b
        · rfl
        · rw [hl] at hs
          simp at hs
      refine List.Nodup.append h (List.nodup_singleton _) ?_
      intro a ha hb
      rcases List.mem_singleton.mp hb with rfl
      exact hnotin ha

theorem mem_insertByExec (m a : ModuleC) (l : List ModuleC) :
    a ∈ insertByExec m l ↔ a = m ∨ a ∈ l := by
  induction l with
  | nil => simp [insertByExec]
  | cons x rest ih =>
    by_cases h : m.execIndex ≤ x.execIndex
    · simp only [insertByExec, h, if_true, List.mem_cons]
    · simp only [insertByExec, h, if_false, List.mem_cons, ih]
      tauto

theorem mem_sortByExecutionOrder (a : ModuleC) (l : List ModuleC) :
    a ∈ sortByExecutionOrder l ↔ a ∈ l := by
  induction l with
  | nil => simp [sortByExecutionOrder]
  | cons m rest ih =>
    simp [sortByExecutionOrder, mem_insertByExec, ih]

theorem sorted_insertByExec (m : ModuleC) (l : List ModuleC)
    (h : List.Pairwise (fun a b => a.execIndex ≤ b.execIndex) l) :
    List.Pairwise (fun a b => a.execIndex ≤ b.execIndex) (insertByExec m l) := by
  induction l with
  | nil => simp [insertByExec]
  | cons x rest ih =>
    rcases List.pairwise_cons.mp h with ⟨hx, hrest⟩
    by_cases hle : m.execIndex ≤ x.execIndex
    · simp only [insertByExec, hle, if_true]
      refine List.pairwise_cons.mpr ⟨?_, h⟩
      intro b hb
      rcases List.mem_cons.mp hb with rfl | hb
      · exact hle
      · exact le_trans hle (hx b hb)
    · simp only [insertByExec, hle, if_false]
      refine List.pairwise_cons.mpr ⟨?_, ih hrest⟩
      intro b hb
      rcases (mem_insertByExec m b rest).mp hb with rfl | hb
      · omega
      · exact hx b hb

theorem sorted_sortByExecutionOrder (l : List ModuleC) :
    List.Pairwise (fun a b => a.execIndex ≤ b.execIndex) (sortByExecutionOrder l) := by
  induction l with
  | nil => simp [sortByExecutionOrder]
  | cons m rest ih => exact sorted_insertByExec m _ ih

theorem buildChunkMap_getD (ms : List ModuleC) (k : String) :
    (lookupKey (buildChunkMap ms) k).getD [] = ms.filter (fun m => chunkKey m == k) := by
  have h := buildChunkMap_fold_getD ms [] k
  simpa [lookupKey, buildChunkMap] using h

theorem buildChunkMap_keys_nodup (ms : List ModuleC) :
    ((buildChunkMap ms).map Prod.fst).Nodup :=
  nodup_keys_buildChunkMap ms [] (by simp)

theorem bucket_eq_filter (ms : List ModuleC) (k : String) (b : List ModuleC)
    (hmem : (k, b) ∈ buildChunkMap ms) :
    b = ms.filter (fun m => chunkKey m == k) := by
  have h1 := lookupKey_of_mem_nodup _ k b (buildChunkMap_keys_nodup ms) hmem
  have h2 := buildChunkMap_getD ms k
  rw [h1] at h2
  simpa using h2

theorem lookup_buildChunkMap_of_mem (ms : List ModuleC) (m : ModuleC) (hm : m ∈ ms) :
    lookupKey (buildChunkMap ms) (chunkKey m)
      = some (ms.filter (fun x => chunkKey x == chunkKey m)) := by
  have hfil : m ∈ ms.filter (fun x => chunkKey x == chunkKey m) :=
    List.mem_filter.mpr ⟨hm, by simp⟩
  cases hl : lookupKey (buildChunkMap ms) (chunkKey m) with
  | none =>
    have hg := buildChunkMap_getD ms (chunkKey m)
    rw [hl] at hg
    simp only [Option.getD_none] at hg
    rw [← hg] at hfil
    simp at hfil
  | some b =>
    have hg := buildChunkMap_getD ms (chunkKey m)
    rw [hl] at hg
    simp only [Option.getD_some] at hg
    rw [hg]

/-- C8: with preserveModules disabled, the grouping loop of build places
every module of orderedModules in exactly one chunk, two modules share a
chunk exactly when the hex encodings of their entryPointsHash agree, and
every chunk is sorted by execution order. -/
theorem build_chunk_partition (ms : List ModuleC) (m m1 m2 : ModuleC)
    (hm : m ∈ ms) (h1 : m1 ∈ ms) (h2 : m2 ∈ ms) :
    (∃ c, c ∈ buildChunks ms ∧ m ∈ c ∧ ∀ c', c' ∈ buildChunks ms → m ∈ c' → c' = c)
    ∧ ((∃ c, c ∈ buildChunks ms ∧ m1 ∈ c ∧ m2 ∈ c) ↔ chunkKey m1 = chunkKey m2)
    ∧ (∀ c, c ∈ buildChunks ms → List.Pairwise (fun a b => a.execIndex ≤ b.execIndex) c) := by
  have hchunk : ∀ x : ModuleC, x ∈ ms →
      sortByExecutionOrder (ms.filter (fun y => chunkKey y == chunkKey x))
        ∈ buildChunks ms := by
    intro x hx
    apply List.mem_map.mpr
    exact ⟨(chunkKey x, ms.filter (fun y => chunkKey y == chunkKey x)),
      mem_of_lookupKey _ _ _ (lookup_buildChunkMap_of_mem ms x hx), rfl⟩
  have hmemchunk : ∀ x : ModuleC, x ∈ ms →
      x ∈ sortByExecutionOrder (ms.filter (fun y => chunkKey y == chunkKey x)) := by
    intro x hx
    exact (mem_sortByExecutionOrder _ _).mpr (List.mem_filter.mpr ⟨hx, by simp⟩)
  have hkey : ∀ c, c ∈ buildChunks ms → ∀ x, x ∈ c →
      c = sortByExecutionOrder (ms.filter (fun y => chunkKey y == chunkKey x)) := by
    intro c hc x hxc
    rcases List.mem_map.mp hc with ⟨⟨k, b⟩, hpair, hcb⟩
    have hb := bucket_eq_filter ms k b hpair
    have hxb : x ∈ b := (mem_sortByExecutionOrder x b).mp (hcb ▸ hxc)
    have hxk : chunkKey x = k := by
      rw [hb] at hxb
      have := (List.mem_filter.mp hxb).2
      simpa using this
    rw [← hcb]
    simp only [hb, hxk]
  refine ⟨?_, ?_, ?_⟩
  · exact ⟨sortByExecutionOrder (ms.filter (fun y => chunkKey y == chunkKey m)),
      hchunk m hm, hmemchunk m hm, fun c' hc' hmc' => hkey c' hc' m hmc'⟩
  · constructor
    · rintro ⟨c, hc, hm1c, hm2c⟩
      have e1 := hkey c hc m1 hm1c
      rw [e1] at hm2c
      have hk2 : chunkKey m2 = chunkKey m1 := by
        have := (List.mem_filter.mp ((mem_sortByExecutionOrder _ _).mp hm2c)).2
        simpa using this
      exact hk2.symm
    · intro heq
      refine ⟨sortByExecutionOrder (ms.filter (fun y => chunkKey y == chunkKey m1)),
        hchunk m1 h1, hmemchunk m1 h1, ?_⟩
      exact (mem_sortByExecutionOrder _ _).mpr (List.mem_filter.mpr ⟨h2, by simp [heq]⟩)
  · intro c hc
    rcases List.mem_map.mp hc with ⟨p, hp, hcp⟩
    rw [← hcp]
    exact sorted_sortByExecutionOrder _

theorem build_chunk_partition_witness :
    (∃ c, c ∈ buildChunks [⟨"a", [0], 0⟩, ⟨"b", [0], 1⟩, ⟨"c", [1], 2⟩]
        ∧ (⟨"a", [0], 0⟩ : ModuleC) ∈ c ∧ (⟨"b", [0], 1⟩ : ModuleC) ∈ c)
      ↔ chunkKey ⟨"a", [0], 0⟩ = chunkKey ⟨"b", [0], 1⟩ := by
  exact (build_chunk_partition [⟨"a", [0], 0⟩, ⟨"b", [0], 1⟩, ⟨"c", [1], 2⟩]
    ⟨"a", [0], 0⟩ ⟨"a", [0], 0⟩ ⟨"b", [0], 1⟩
    (by decide) (by decide) (by decide)).2.1

theorem flagsLe_refl (a : List Bool) : flagsLe a a :=
  List.forall₂_same.mpr (fun _ _ h => h)

theorem stateLe_refl (s : IncState) : stateLe s s :=
  List.forall₂_same.mpr (fun m _ => flagsLe_refl m)

theorem flagsLe_trans {a b c : List Bool} (h1 : flagsLe a b) (h2 : flagsLe b c) :
    flagsLe a c := by
  induction h1 generalizing c with
  | nil => cases h2; exact List.Forall₂.nil
  | cons hab _ ih =>
    cases h2 with
    | cons hbc hrest2 => exact List.Forall₂.cons (fun hx => hbc (hab hx)) (ih hrest2)

theorem stateLe_trans {s1 s2 s3 : IncState} (h1 : stateLe s1 s2) (h2 : stateLe s2 s3) :
    stateLe s1 s3 := by
  induction h1 generalizing s3 with
  | nil => cases h2; exact List.Forall₂.nil
  | cons hab _ ih =>
    cases h2 with
    | cons hbc hrest2 => exact List.Forall₂.cons (flagsLe_trans hab hbc) (ih hrest2)

theorem flagsLe_count_le : ∀ {a b : List Bool}, flagsLe a b →
    a.count true ≤ b.count true := by
  intro a
  induction a with
  | nil =>
    intro b h
    cases h
    exact le_refl _
  | cons x l1 ih =>
    intro b h
    cases h with
    | @cons _ y _ l2 hpq hrest =>
      have ht := ih hrest
      cases x with
      | true =>
        have hy : y = true := hpq rfl
        subst hy
        simp only [List.count_cons]
        simp
        omega
      | false =>
        cases y <;> simp only [List.count_cons] <;> simp <;> omega

theorem flagsLe_count_lt : ∀ {a b : List Bool}, flagsLe a b → a ≠ b →
    a.count true < b.count true := by
  intro a
  induction a with
  | nil =>
    intro b h hne
    cases h
    exact absurd rfl hne
  | cons x l1 ih =>
    intro b h hne
    cases h with
    | @cons _ y _ l2 hpq hrest =>
      by_cases hxy : x = y
      · subst hxy
        have hne2 : l1 ≠ l2 := by
          intro hh
          exact hne (by rw [hh])
        have := ih hrest hne2
        simp only [List.count_cons]
        omega
      · cases x <;> cases y
        · exact absurd rfl hxy
        · have hle := flagsLe_count_le hrest
          simp only [List.count_cons]
          simp
          omega
        · exact absurd (hpq rfl) (by decide)
        · exact absurd rfl hxy

theorem stateLe_flagsOn_le : ∀ {s s' : IncState}, stateLe s s' →
    flagsOn s ≤ flagsOn s' := by
  intro s
  induction s with
  | nil =>
    intro s' h
    cases h
    exact le_refl _
  | cons m rest ih =>
    intro s' h
    cases h with
    | @cons _ m2 _ l2 hm hrest =>
      have h1 := flagsLe_count_le hm
      have h2 := ih hrest
      simp only [flagsOn]
      omega

theorem stateLe_flagsOn_lt : ∀ {s s' : IncState}, stateLe s s' → s ≠ s' →
    flagsOn s < flagsOn s' := by
  intro s
  induction s with
  | nil =>
    intro s' h hne
    cases h
    exact absurd rfl hne
  | cons m rest ih =>
    intro s' h hne
    cases h with
    | @cons _ m2 _ l2 hm hrest =>
      by_cases hm12 : m = m2
      · subst hm12
        have hne2 : rest ≠ l2 := by
          intro hh
          exact hne (by rw [hh])
        have := ih hrest hne2
        simp only [flagsOn]
        omega
      · have hlt := flagsLe_count_lt hm hm12
        have hle := stateLe_flagsOn_le hrest
        simp only [flagsOn]
        omega

theorem stateLe_capacity_eq : ∀ {s s' : IncState}, stateLe s s' →
    stateCapacity s = stateCapacity s' := by
  intro s
  induction s with
  | nil =>
    intro s' h
    cases h
    rfl
  | cons m rest ih =>
    intro s' h
    cases h with
    | @cons _ m2 _ l2 hm hrest =>
      simp only [stateCapacity]
      rw [List.Forall₂.length_eq hm, ih hrest]

theorem flagsOn_le_stateCapacity (s : IncState) : flagsOn s ≤ stateCapacity s := by
  induction s with
  | nil => exact le_refl _
  | cons m rest ih =>
    simp only [flagsOn, stateCapacity]
    have := List.count_le_length true m
    omega

theorem passAux_stateLe (inc : Nat → IncState → Bool × IncState)
    (Hmono : ∀ i t, stateLe t (inc i t).2) :
    ∀ (is : List Nat) (s : IncState) (c : Bool), stateLe s (passAux inc is s c).1 := by
  intro is
  induction is with
  | nil =>
    intro s c
    exact stateLe_refl s
  | cons i rest ih =>
    intro s c
    exact stateLe_trans (Hmono i s) (ih (inc i s).2 (c || (inc i s).1))

theorem passAux_false (inc : Nat → IncState → Bool × IncState)
    (Hc : ∀ i t, ((inc i t).1 = true ↔ (inc i t).2 ≠ t)) :
    ∀ (is : List Nat) (s : IncState) (c : Bool),
      (passAux inc is s c).2 = false → (passAux inc is s c).1 = s ∧ c = false := by
  intro is
  induction is with
  | nil =>
    intro s c h
    exact ⟨rfl, h⟩
  | cons i rest ih =>
    intro s c h
    have h' := ih (inc i s).2 (c || (inc i s).1) h
    rcases Bool.or_eq_false_iff.mp h'.2 with ⟨hc, hci⟩
    have hs2 : (inc i s).2 = s := by
      by_contra hne
      rw [(Hc i s).mpr hne] at hci
      cases hci
    refine ⟨?_, hc⟩
    show (passAux inc rest (inc i s).2 (c || (inc i s).1)).1 = s
    rw [h'.1, hs2]

theorem passAux_true_flagsOn (inc : Nat → IncState → Bool × IncState)
    (Hmono : ∀ i t, stateLe t (inc i t).2)
    (Hc : ∀ i t, ((inc i t).1 = true ↔ (inc i t).2 ≠ t)) :
    ∀ (is : List Nat) (s : IncState) (c : Bool),
      (passAux inc is s c).2 = true →
        c = true ∨ flagsOn s < flagsOn (passAux inc is s c).1 := by
  intro is
  induction is with
  | nil =>
    intro s c h
    exact Or.inl h
  | cons i rest ih =>
    intro s c h
    rcases ih (inc i s).2 (c || (inc i s).1) h with hc | hlt
    · rcases Bool.or_eq_true_iff.mp hc with hc | hc
      · exact Or.inl hc
      · right
        have hne : (inc i s).2 ≠ s := (Hc i s).mp hc
        have hlt1 : flagsOn s < flagsOn (inc i s).2 :=
          stateLe_flagsOn_lt (Hmono i s) (fun hh => hne hh.symm)
        have hle2 : flagsOn (inc i s).2
            ≤ flagsOn (passAux inc rest (inc i s).2 (c || (inc i s).1)).1 :=
          stateLe_flagsOn_le (passAux_stateLe inc Hmono rest (inc i s).2 (c || (inc i s).1))
        show flagsOn s < flagsOn (passAux inc rest (inc i s).2 (c || (inc i s).1)).1
        omega
    · right
      have hle1 : flagsOn s ≤ flagsOn (inc i s).2 := stateLe_flagsOn_le (Hmono i s)
      show flagsOn s < flagsOn (passAux inc rest (inc i s).2 (c || (inc i s).1)).1
      omega

theorem includeMarkedFuel_fixpoint (inc : Nat → IncState → Bool × IncState) (is : List Nat)
    (Hmono : ∀ i t, stateLe t (inc i t).2)
    (Hc : ∀ i t, ((inc i t).1 = true ↔ (inc i t).2 ≠ t)) :
    ∀ (fuel : Nat) (s : IncState), stateCapacity s < flagsOn s + fuel →
      treePass inc is (includeMarkedFuel inc is fuel s)
        = (includeMarkedFuel inc is fuel s, false) := by
  intro fuel
  induction fuel with
  | zero =>
    intro s h
    have := flagsOn_le_stateCapacity s
    omega
  | succ f ih =>
    intro s h
    by_cases hch : (treePass inc is s).2 = true
    · have hstep : includeMarkedFuel inc is (f + 1) s
          = includeMarkedFuel inc is f (treePass inc is s).1 := by
        simp [includeMarkedFuel, hch]
      rw [hstep]
      apply ih
      have hlt : flagsOn s < flagsOn (treePass inc is s).1 := by
        rcases passAux_true_flagsOn inc Hmono Hc is s false hch with hcf | hl
        · cases hcf
        · exact hl
      have hcap : stateCapacity (treePass inc is s).1 = stateCapacity s :=
        (stateLe_capacity_eq (passAux_stateLe inc Hmono is s false)).symm
      omega
    · have hchf : (treePass inc is s).2 = false := by
        simpa using hch
      have hfix := passAux_false inc Hc is s false hchf
      have hfix1 : (treePass inc is s).1 = s := hfix.1
      have hstep : includeMarkedFuel inc is (f + 1) s = (treePass inc is s).1 := by
        simp [includeMarkedFuel, hchf]
      rw [hstep, hfix1]
      have hpair : treePass inc is s = (s, false) := by
        have h1 : (treePass inc is s).1 = s := hfix.1
        rcases hp : treePass inc is s with ⟨a, b⟩
        rw [hp] at h1 hchf
        simp only at h1 hchf
        rw [h1, hchf]
      exact hpair

theorem includeAllLoop_once (iab : List Bool → List Bool) (s : IncState) :
    includeAllLoop iab s = (s.map iab, s.length) := by
  induction s with
  | nil => rfl
  | cons m rest ih => simp [includeAllLoop, ih]

/-- C9: under the precondition stated by the claim, namely that each include
call only grows the inclusion state and reports true exactly when some
inclusion state changed during the call, the tree-shaking do-while of
includeMarked reaches a state on which a further full pass over
orderedModules reports no change, so the loop stops at the first such pass;
with tree-shaking disabled, includeMarked applies includeAllInBundle exactly
once per module in a single pass. -/
theorem includeMarked_terminates (inc : Nat → IncState → Bool × IncState)
    (iab : List Bool → List Bool) (is : List Nat) (s : IncState)
    (Hmono : ∀ i t, stateLe t (inc i t).2)
    (Hc : ∀ i t, ((inc i t).1 = true ↔ (inc i t).2 ≠ t)) :
    treePass inc is (includeMarked true inc iab is s)
      = (includeMarked true inc iab is s, false)
    ∧ includeMarked false inc iab is s = s.map iab
    ∧ (includeAllLoop iab s).2 = s.length := by
  refine ⟨?_, ?_, ?_⟩
  · show treePass inc is (includeMarkedFuel inc is (stateCapacity s + 1) s)
        = (includeMarkedFuel inc is (stateCapacity s + 1) s, false)
    exact includeMarkedFuel_fixpoint inc is Hmono Hc (stateCapacity s + 1) s (by omega)
  · show (includeAllLoop iab s).1 = s.map iab
    rw [includeAllLoop_once]
  · rw [includeAllLoop_once]

theorem includeMarked_terminates_witness :
    treePass (fun _ t => (false, t)) [0]
        (includeMarked true (fun _ t => (false, t))
          (fun m => m.map (fun _ => true)) [0] [[false]])
      = (includeMarked true (fun _ t => (false, t))
          (fun m => m.map (fun _ => true)) [0] [[false]], false)
    ∧ includeMarked false (fun _ t => (false, t))
        (fun m => m.map (fun _ => true)) [0] [[false]] = [[true]] := by
  have h := includeMarked_terminates (fun _ t => (false, t))
    (fun m => m.map (fun _ => true)) [0] [[false]]
    (fun _ t => stateLe_refl t) (fun _ t => by simp)
  refine ⟨h.1, ?_⟩
  rw [h.2.1]
  rfl
